import Mathlib

/-!
Shallow embedding of the gluaflag argument-parsing engine (otm/gluaflag).

The embedding follows `src/flagset.go` and `src/helpers.go`.  The flag phase
(`fs.fs.Parse`) is Go's standard `flag` package with `ContinueOnError`; its
scanner is embedded faithfully below (token classification, `--` terminator,
`-name=value` splitting, boolean special case, `help`/`h` special case, and the
exact `flag provided but not defined: -name` message, which is also pinned by
`src/flag_test.go`).  The repeated-flag accumulator types (`intslice`,
`numberslice`, `stringslice`) and the positional-argument consumption
(`argument.parse`) live in repository files that are not under `src/`; those
parts are modelled from the spec and marked `Modelled from the spec:` on the
corresponding definitions.

Machine integers are modelled as unbounded `Int`/`Nat` (no claim exercises
64-bit overflow) and Go `float64` values as exact decimal rationals (`Rat`);
no claim depends on floating-point rounding, formatting, or non-decimal float
syntax.
-/

namespace Gluaflag

/-- Closed variant of flag kinds, as the spec's design note 9 prescribes for the
runtime type switches over value-cell pointers in the source. -/
inductive FlagKind
  | bool | int | float | str | ints | floats | strs
  deriving DecidableEq, Repr

/-- Typed content of one flag value cell: a scalar (`*bool`, `*int`, `*float64`,
`*string`) or an ordered sequence accumulator (`*intslice`, `*numberslice`,
`*stringslice`). -/
inductive FlagVal
  | vb (b : Bool)
  | vi (i : Int)
  | vf (q : Rat)
  | vs (s : String)
  | vis (xs : List Int)
  | vfs (xs : List Rat)
  | vss (xs : List String)
  deriving DecidableEq, Repr

/-- One coerced element destined for a sequence accumulator. -/
inductive SeqElt
  | ei (i : Int)
  | ef (q : Rat)
  | es (s : String)
  deriving DecidableEq, Repr

/-- Append one coerced element to a sequence accumulator cell (the `Set` method
of the slice value types).  On a cell of any other shape it is the identity;
that case is unreachable because ops are generated kind-directed. -/
def pushElt (e : SeqElt) (v : FlagVal) : FlagVal :=
  match e, v with
  | .ei k, .vis xs => .vis (xs ++ [k])
  | .ef q, .vfs xs => .vfs (xs ++ [q])
  | .es s, .vss xs => .vss (xs ++ [s])
  | _, _ => v

/-- Modelled from the spec: sequence accumulators are reset at the start of each
Parse (spec §3 lifecycle: "repeated-flag accumulators must be reset at the start
of each Parse, not appended across calls"); the slice value code (slice.go) is
not under src/.  Scalar cells are left untouched. -/
def resetVal : FlagVal → FlagVal
  | .vis _ => .vis []
  | .vfs _ => .vfs []
  | .vss _ => .vss []
  | v => v

/-- Decimal digit / hex digit value of a character. -/
def digitValue (c : Char) : Option Nat :=
  if '0' ≤ c ∧ c ≤ '9' then some (c.toNat - '0'.toNat)
  else if 'a' ≤ c ∧ c ≤ 'f' then some (c.toNat - 'a'.toNat + 10)
  else if 'A' ≤ c ∧ c ≤ 'F' then some (c.toNat - 'A'.toNat + 10)
  else none

/-- Fold a digit string in the given base onto an accumulator; fails on the
first character that is not a digit of the base. -/
def digitsVal (base : Nat) : List Char → Nat → Option Nat
  | [], acc => some acc
  | c :: rest, acc =>
    match digitValue c with
    | some d => if d < base then digitsVal base rest (acc * base + d) else none
    | none => none

/-- Nonempty digit string in the given base. -/
def parseUnsigned (base : Nat) (cs : List Char) : Option Nat :=
  match cs with
  | [] => none
  | _ => digitsVal base cs 0

/-- Go `strconv.ParseInt(s, 0, 64)` as used by the standard flag package's int
values: optional sign, then `0x`/`0o`/`0b` prefixes or a leading `0` for octal,
else decimal.  Underscore digit separators and the 64-bit range check are not
modelled (no claim exercises them). -/
def parseIntChars (cs : List Char) : Option Int :=
  match cs with
  | [] => none
  | _ =>
    let sgn : Bool × List Char :=
      match cs with
      | '+' :: rest => (false, rest)
      | '-' :: rest => (true, rest)
      | _ => (false, cs)
    let mag : Option Nat :=
      match sgn.2 with
      | '0' :: k :: rest =>
        if k = 'x' ∨ k = 'X' then parseUnsigned 16 rest
        else if k = 'o' ∨ k = 'O' then parseUnsigned 8 rest
        else if k = 'b' ∨ k = 'B' then parseUnsigned 2 rest
        else parseUnsigned 8 (k :: rest)
      | ['0'] => some 0
      | other => parseUnsigned 10 other
    match mag with
    | some n => some (if sgn.1 then -(n : Int) else (n : Int))
    | none => none

/-- String front end of `parseIntChars`. -/
def parseIntGo (s : String) : Option Int :=
  parseIntChars s.data

/-- Go `strconv.ParseBool`: exactly twelve accepted literals. -/
def parseBoolGo (s : String) : Option Bool :=
  if s = "1" ∨ s = "t" ∨ s = "T" ∨ s = "true" ∨ s = "TRUE" ∨ s = "True" then some true
  else if s = "0" ∨ s = "f" ∨ s = "F" ∨ s = "false" ∨ s = "FALSE" ∨ s = "False" then
    some false
  else none

/-- Signed exponent suffix digits of a float literal (everything after `e`/`E`);
must be nonempty and fully consumed. -/
def parseExp (cs : List Char) : Option Int :=
  let sgn : Bool × List Char :=
    match cs with
    | '+' :: rest => (false, rest)
    | '-' :: rest => (true, rest)
    | _ => (false, cs)
  match parseUnsigned 10 sgn.2 with
  | some n => some (if sgn.1 then -(n : Int) else (n : Int))
  | none => none

/-- Go `strconv.ParseFloat` restricted to decimal syntax, with the value taken
as an exact rational: optional sign, digits with optional fraction, optional
`e`/`E` exponent.  `inf`/`nan` and hex floats are not modelled (no claim
exercises them; they would coerce where the model reports a mismatch). -/
def parseFloatChars (cs : List Char) : Option Rat :=
  let sgn : Bool × List Char :=
    match cs with
    | '+' :: rest => (false, rest)
    | '-' :: rest => (true, rest)
    | _ => (false, cs)
  let intPart := sgn.2.takeWhile Char.isDigit
  let rest1 := sgn.2.dropWhile Char.isDigit
  let fracSplit : List Char × List Char :=
    match rest1 with
    | '.' :: r => (r.takeWhile Char.isDigit, r.dropWhile Char.isDigit)
    | _ => ([], rest1)
  if intPart = [] ∧ fracSplit.1 = [] then none
  else
    let expOpt : Option Int :=
      match fracSplit.2 with
      | [] => some 0
      | e :: r => if e = 'e' ∨ e = 'E' then parseExp r else none
    match expOpt with
    | none => none
    | some ex =>
      let mant : Nat := (digitsVal 10 (intPart ++ fracSplit.1) 0).getD 0
      let flen : Nat := fracSplit.1.length
      let mag : Rat :=
        if 0 ≤ ex then mkRat (mant * 10 ^ ex.toNat) (10 ^ flen)
        else mkRat mant (10 ^ flen * 10 ^ (-ex).toNat)
      some (if sgn.1 then -mag else mag)

/-- String front end of `parseFloatChars`. -/
def parseFloatGo (s : String) : Option Rat :=
  parseFloatChars s.data

/-- One registered flag: name, kind, default (the backing cell's initial
value), usage text and completion callback.  Callbacks are modelled as pure
functions `(partial word, flags-so-far table, raw words) → candidates`, per the
spec's completion-callback contract (§5, §6); value flags registered without a
callback get the source's default callback returning the empty string. -/
structure Flg where
  name : String
  kind : FlagKind
  dflt : FlagVal
  usage : String
  compFn : String → List (String × String) → List String → String

/-- Cardinality policies of positional arguments (spec §3/§4.3; in the source
these are the `times`/`glob`/`optional` fields set from the `nargs`
specifier). -/
inductive Cardinality
  | exact (n : Nat)
  | optional
  | zeroOrMore
  | oneOrMore
  deriving DecidableEq, Repr

/-- Declared type of a positional argument (`"string"`, `"int"`, `"number"` in
the source). -/
inductive ArgType
  | int | number | str
  deriving DecidableEq, Repr

/-- One registered positional argument. -/
structure Argument where
  name : String
  typ : ArgType
  card : Cardinality
  usage : String
  compFn : String → List (String × String) → List String → String

/-- Static registration data of a `FlagSet`: the flag registry (source keeps it
both in the Go `flag.FlagSet` and in the `flags` map, always registered
together, so one registry models both) and the ordered positional-argument
registry. -/
structure FlagSet where
  name : String
  flags : List Flg
  arguments : List Argument

/-- Mutable state of a `FlagSet`: the backing value cells (keyed by flag name,
one entry per registered flag, in registration order) and the set of flags seen
by the scanner (Go `flag.FlagSet.actual`, here in first-seen order; it is only
ever read through the sorting `Visit`). -/
structure St where
  cells : List (String × FlagVal)
  actual : List String
  deriving DecidableEq, Repr

/-- State right after registration: every cell holds its default, no flag seen. -/
def initSt (fs : FlagSet) : St :=
  ⟨fs.flags.map (fun f => (f.name, f.dflt)), []⟩

/-- Registry lookup by flag name (`flag.FlagSet.Lookup` / the `flags` map). -/
def FlagSet.lookup (fs : FlagSet) (n : String) : Option Flg :=
  fs.flags.find? (fun f => f.name == n)

/-- One primitive state write performed by the scanner: overwrite a scalar cell,
append one element to a sequence cell, or record a flag as seen. -/
inductive WOp
  | setF (n : String) (v : FlagVal)
  | appF (n : String) (e : SeqElt)
  | markSeen (n : String)
  deriving DecidableEq, Repr

/-- Overwrite the cell named `n`. -/
def setCells (n : String) (v : FlagVal) (cs : List (String × FlagVal)) :
    List (String × FlagVal) :=
  cs.map (fun p => if p.1 = n then (p.1, v) else p)

/-- Append to the sequence cell named `n`. -/
def appCells (n : String) (e : SeqElt) (cs : List (String × FlagVal)) :
    List (String × FlagVal) :=
  cs.map (fun p => if p.1 = n then (p.1, pushElt e p.2) else p)

/-- Record a flag name as seen (Go map insert, modelled order-preserving). -/
def addSeen (n : String) (a : List String) : List String :=
  if n ∈ a then a else a ++ [n]

/-- Apply one write to the state. -/
def applyOp (st : St) : WOp → St
  | .setF n v => ⟨setCells n v st.cells, st.actual⟩
  | .appF n e => ⟨appCells n e st.cells, st.actual⟩
  | .markSeen n => ⟨st.cells, addSeen n st.actual⟩

/-- Apply a list of writes left to right. -/
def applyOps (ops : List WOp) (st : St) : St :=
  ops.foldl applyOp st

/-- Modelled from the spec: reset of the sequence accumulators at the start of a
flag phase (see `resetVal`). -/
def resetSeqSt (st : St) : St :=
  ⟨st.cells.map (fun p => (p.1, resetVal p.2)), st.actual⟩

/-- Go quoting of a value in an error message (`%q`, simplified to plain
quotes; no claim pins these messages). -/
def quoteGo (s : String) : String :=
  "\"" ++ s ++ "\""

/-- Kind-directed `flag.Value.Set`: coerce one raw string and produce the cell
write plus the seen-mark, or fail on a type mismatch.  For the sequence kinds
this is the slice types' append behaviour, Modelled from the spec: "each time
the flag is seen, coerce the single new value and append" (§4.1); slice.go is
not under src/. -/
def setOps (k : FlagKind) (n : String) (value : String) : Option (List WOp) :=
  match k with
  | .bool => (parseBoolGo value).map (fun b => [WOp.setF n (.vb b), WOp.markSeen n])
  | .int => (parseIntGo value).map (fun i => [WOp.setF n (.vi i), WOp.markSeen n])
  | .float => (parseFloatGo value).map (fun q => [WOp.setF n (.vf q), WOp.markSeen n])
  | .str => some [WOp.setF n (.vs value), WOp.markSeen n]
  | .ints => (parseIntGo value).map (fun i => [WOp.appF n (.ei i), WOp.markSeen n])
  | .floats => (parseFloatGo value).map (fun q => [WOp.appF n (.ef q), WOp.markSeen n])
  | .strs => some [WOp.appF n (.es value), WOp.markSeen n]

/-- Decision of the scanner for the token at the head of the remaining argument
list: stop the flag phase here (token stays), consume a lone `--` and stop,
fail, or consume the token (`take1`) or the token plus the following value
token (`take2`) performing the given writes. -/
inductive ScanRes
  | stopHere
  | dashDash
  | failTok (msg : String)
  | take1 (ops : List WOp)
  | take2 (ops : List WOp)
  deriving DecidableEq, Repr

/-- Split a flag body at its first `=` into name and value (`-name=value`).
Go scans from index 1, but the caller has already rejected a leading `=`, so
splitting anywhere is equivalent. -/
def splitAtEq : List Char → List Char × Option (List Char)
  | [] => ([], none)
  | c :: rest =>
    if c = '=' then ([], some rest)
    else
      let p := splitAtEq rest
      (c :: p.1, p.2)

/-- One step of Go `flag.FlagSet.parseOne` for the token `s`, with `next` the
following token if any.  Faithful to the standard library scanner: tokens
shorter than two characters or not starting with `-` end the flag phase; `--`
ends it consuming itself; a bad name (`-`/`=` after the dashes) fails; unknown
names fail with `flag provided but not defined: -name` (after the `help`/`h`
special case); boolean flags consume no value token; every other kind takes the
`=`-value or the next token.  Decisions depend only on the registry and the
tokens, never on the cells, so the step returns writes instead of a state. -/
def scanTok (fs : FlagSet) (s : String) (next : Option String) : ScanRes :=
  match s.data with
  | c :: c1 :: cs1 =>
    if c ≠ '-' then .stopHere
    else if c1 = '-' ∧ cs1 = [] then .dashDash
    else
      match if c1 = '-' then cs1 else c1 :: cs1 with
      | [] => .failTok ("bad flag syntax: " ++ s)
      | c0 :: cs0 =>
        if c0 = '-' ∨ c0 = '=' then .failTok ("bad flag syntax: " ++ s)
        else
          let p := splitAtEq (c0 :: cs0)
          let name : String := String.mk p.1
          match fs.lookup name with
          | none =>
            if name = "help" ∨ name = "h" then .failTok "flag: help requested"
            else .failTok ("flag provided but not defined: -" ++ name)
          | some f =>
            if f.kind = .bool then
              match p.2 with
              | some v =>
                match parseBoolGo (String.mk v) with
                | some b => .take1 [.setF name (.vb b), .markSeen name]
                | none =>
                  .failTok ("invalid boolean value " ++ quoteGo (String.mk v) ++
                    " for -" ++ name)
              | none => .take1 [.setF name (.vb true), .markSeen name]
            else
              match p.2 with
              | some v =>
                match setOps f.kind name (String.mk v) with
                | some ops => .take1 ops
                | none =>
                  .failTok ("invalid value " ++ quoteGo (String.mk v) ++
                    " for flag -" ++ name)
              | none =>
                match next with
                | some v =>
                  match setOps f.kind name v with
                  | some ops => .take2 ops
                  | none =>
                    .failTok ("invalid value " ++ quoteGo v ++ " for flag -" ++ name)
                | none => .failTok ("flag needs an argument: -" ++ name)
  | _ => .stopHere

/-- Scanner loop of Go `flag.FlagSet.Parse`: repeat `scanTok` until it stops or
fails; returns the leftover tokens (or the error) together with the writes
performed along the way, in order.  A `take2` with an empty remainder cannot
occur (`scanTok` then fails with `flag needs an argument`); the dead branch
mirrors that impossibility. -/
def parseLoop (fs : FlagSet) : List String → Except String (List String) × List WOp
  | [] => (.ok [], [])
  | a :: rest =>
    match scanTok fs a rest.head? with
    | .stopHere => (.ok (a :: rest), [])
    | .dashDash => (.ok rest, [])
    | .failTok m => (.error m, [])
    | .take1 ops =>
      let r := parseLoop fs rest
      (r.1, ops ++ r.2)
    | .take2 ops =>
      match rest with
      | [] => (.error "flag needs an argument", [])
      | _ :: rest2 =>
        let r := parseLoop fs rest2
        (r.1, ops ++ r.2)

/-- Go `fs.fs.Parse(args)` as invoked by the source's `Parse` and `Compgen`: run
the scanner over the tokens and apply its writes to the persistent cells, after
resetting the sequence accumulators (Modelled from the spec: §3 lifecycle reset;
see `resetVal`).  On error the writes performed before the failure have still
happened, as in the in-place Go original. -/
def flagPhaseRun (fs : FlagSet) (st : St) (args : List String) :
    Except String (List String) × St :=
  let r := parseLoop fs args
  (r.1, applyOps r.2 (resetSeqSt st))

/-- Lexicographic order on char lists by code point (Go compares flag names as
byte strings; the orders agree on ASCII flag names and no claim depends on the
order of non-ASCII names). -/
def leChars : List Char → List Char → Bool
  | [], _ => true
  | _ :: _, [] => false
  | c :: cs, d :: ds =>
    if c.toNat < d.toNat then true
    else if d.toNat < c.toNat then false
    else leChars cs ds

/-- Name comparison used by the sorted flag visits. -/
def leStr (a b : String) : Bool :=
  leChars a.data b.data

/-- Insert into a lexicographically sorted list of names. -/
def insertName (x : String) : List String → List String
  | [] => [x]
  | y :: ys => if leStr x y then x :: y :: ys else y :: insertName x ys

/-- Lexicographic sort of flag names; Go's `VisitAll`/`Visit` iterate flags in
sorted name order. -/
def sortNames (l : List String) : List String :=
  l.foldr insertName []

/-- Source `printFlags` (flagset.go:131): every registered flag name prefixed
with `-`, joined with a NEWLINE (`strings.Join(s, "\n")`), visiting flags in
`VisitAll`'s sorted order. -/
def printFlags (fs : FlagSet) : String :=
  String.intercalate "\n" ((sortNames (fs.flags.map Flg.name)).map (fun n => "-" ++ n))

/-- Rendering of a cell for the flags-so-far table handed to completion
callbacks (`f.Value.String()`).  Scalars render canonically; the slice types'
`String()` is Modelled from the spec: an ordered bracketed list (slice.go is
not under src/).  No claim pins these strings; only their determinism
matters. -/
def valueString : FlagVal → String
  | .vb b => if b then "true" else "false"
  | .vi i => toString i
  | .vf q => toString q
  | .vs s => s
  | .vis xs => "[" ++ String.intercalate " " (xs.map toString) ++ "]"
  | .vfs xs => "[" ++ String.intercalate " " (xs.map toString) ++ "]"
  | .vss xs => "[" ++ String.intercalate " " xs ++ "]"

/-- Current value of the cell named `n` (cells exist for every registered
flag; the default is dead code for well-formed states). -/
def cellVal (st : St) (n : String) : FlagVal :=
  match st.cells.find? (fun p => p.1 == n) with
  | some p => p.2
  | none => .vs ""

/-- Go `fs.fs.Visit` serialized into the flags-so-far table passed to
completion callbacks: the flags already seen by the scanner, in sorted name
order, each with its current cell rendered as a string. -/
def visitTable (st : St) : List (String × String) :=
  (sortNames st.actual).map (fun n => (n, valueString (cellVal st n)))

/-- Lua values occurring in a parse result: scalars plus the array tables the
slice accumulators and positional arguments convert to. -/
inductive LuaVal
  | num (q : Rat)
  | str (s : String)
  | boolean (b : Bool)
  | numArr (xs : List Rat)
  | strArr (xs : List String)
  deriving DecidableEq, Repr

/-- Result table of a parse: the hash part keyed by flag/argument name plus the
array part (`t.Append`) holding leftover tokens. -/
structure LuaTable where
  hash : List (String × LuaVal)
  arr : List LuaVal
  deriving DecidableEq, Repr

/-- Conversion of a flag cell into the result table entry (the type switch in
the source's `Parse`, flagset.go:643): numbers and ints become Lua numbers,
slices become array tables. -/
def luaOfFlagVal : FlagVal → LuaVal
  | .vb b => .boolean b
  | .vi i => .num (i : Rat)
  | .vf q => .num q
  | .vs s => .str s
  | .vis xs => .numArr (xs.map (fun i => (i : Rat)))
  | .vfs xs => .numArr xs
  | .vss xs => .strArr xs

/-- Errors observable from the embedded operations: `returned` is a Go
`return nil, err`, `raised` is `L.RaiseError` (a thrown Lua error), `panic` is
a Go runtime panic (nil dereference / slice bounds). -/
inductive Err
  | returned (msg : String)
  | raised (msg : String)
  | panic
  deriving DecidableEq, Repr

/-- Whether a parse outcome is an error returned as a value (as opposed to
raised or panicked). -/
def isReturnedErr : Except Err (LuaTable × St) → Bool
  | .error (.returned _) => true
  | _ => false

/-- Modelled from the spec: §4.1 coercion of one positional token by the
argument's declared type (argument.go is not under src/). -/
def coerceArgTok (t : ArgType) (s : String) : Option LuaVal :=
  match t with
  | .int => (parseIntGo s).map (fun i => LuaVal.num (i : Rat))
  | .number => (parseFloatGo s).map LuaVal.num
  | .str => some (.str s)

/-- Coerce a token run for one positional argument; the first failure aborts. -/
def coerceArgToks (t : ArgType) : List String → Option (List LuaVal)
  | [] => some []
  | s :: rest =>
    match coerceArgTok t s, coerceArgToks t rest with
    | some v, some vs => some (v :: vs)
    | _, _ => none

/-- Pack collected positional values into one Lua value (`arg.toLValue`):
Modelled from the spec: a single consumed token for an Exact(1)/Optional
argument yields the scalar, otherwise an array table of the collected typed
values (argument.go is not under src/). -/
def argResult (a : Argument) (vs : List LuaVal) : LuaVal :=
  match a.card, vs with
  | .exact 1, [v] => v
  | .optional, [v] => v
  | _, _ =>
    match a.typ with
    | .str => .strArr (vs.filterMap (fun v => match v with | .str s => some s | _ => none))
    | _ => .numArr (vs.filterMap (fun v => match v with | .num q => some q | _ => none))

/-- Modelled from the spec: §4.3 cardinality consumption algorithm of
`argument.parse` (argument.go is not under src/): Exact(n) takes exactly n
tokens or fails, Optional takes one if available, ZeroOrMore takes everything,
OneOrMore takes everything but fails on zero; each consumed token is coerced by
the declared type and a single failure aborts.  Error payloads are simplified
(no claim pins them). -/
def argParse (a : Argument) (toks : List String) :
    Except String (LuaVal × List String) :=
  match a.card with
  | .exact n =>
    if toks.length < n then .error "not enough arguments"
    else
      match coerceArgToks a.typ (toks.take n) with
      | none => .error "invalid value"
      | some vs => .ok (argResult a vs, toks.drop n)
  | .optional =>
    match toks with
    | [] => .ok (argResult a [], [])
    | s :: rest =>
      match coerceArgTok a.typ s with
      | none => .error "invalid value"
      | some v => .ok (argResult a [v], rest)
  | .zeroOrMore =>
    match coerceArgToks a.typ toks with
    | none => .error "invalid value"
    | some vs => .ok (argResult a vs, [])
  | .oneOrMore =>
    match toks with
    | [] => .error "not enough arguments"
    | _ =>
      match coerceArgToks a.typ toks with
      | none => .error "invalid value"
      | some vs => .ok (argResult a vs, [])

/-- Positional phase of the source's `Parse` (flagset.go:672): fold
`argument.parse` over the registered arguments in registration order, keying
each result by the argument's name; an error is wrapped as
`argument <name>: <err>` and returned. -/
def argsPhase : List Argument → List String →
    Except String (List (String × LuaVal) × List String)
  | [], toks => .ok ([], toks)
  | a :: rest, toks =>
    match argParse a toks with
    | .error m => .error ("argument " ++ a.name ++ ": " ++ m)
    | .ok (v, toks2) =>
      match argsPhase rest toks2 with
      | .error m => .error m
      | .ok (ps, toksF) => .ok ((a.name, v) :: ps, toksF)

/-- Go `fmt` rendering of a `[]string` (`%v`): space-separated inside
brackets. -/
def goFmtSlice (xs : List String) : String :=
  "[" ++ String.intercalate " " xs ++ "]"

/-- Hash part of the result table built from the flag cells (the `range
gf.flags` loop, flagset.go:642).  Go map iteration order is unspecified; the
built table is keyed by unique names, so the registration order used here is
an order-irrelevant representative. -/
def buildFlagTable (fs : FlagSet) (st : St) : List (String × LuaVal) :=
  fs.flags.map (fun f => (f.name, luaOfFlagVal (cellVal st f.name)))

/-- Source `Parse` (flagset.go:628): run the flag phase on the persistent
cells; on scanner error return it (value-or-error).  Then build the flag table;
with no registered arguments append the leftover tokens verbatim to the array
part and succeed.  Otherwise run the positional phase; a positional error is
returned, but leftover tokens after all arguments are satisfied are RAISED via
`L.RaiseError("unknown argument: %v", args)` (flagset.go:682). -/
def Parse (fs : FlagSet) (st : St) (args : List String) :
    Except Err (LuaTable × St) :=
  match flagPhaseRun fs st args with
  | (.error m, _) => .error (.returned m)
  | (.ok leftover, st2) =>
    if fs.arguments.isEmpty then
      .ok (⟨buildFlagTable fs st2, leftover.map LuaVal.str⟩, st2)
    else
      match argsPhase fs.arguments leftover with
      | .error m => .error (.returned m)
      | .ok (ps, rest) =>
        if rest.isEmpty then .ok (⟨buildFlagTable fs st2 ++ ps, []⟩, st2)
        else .error (.raised ("unknown argument: " ++ goFmtSlice rest))

/-- Positional-slot index probed by `Compgen`'s argument branch
(flagset.go:202): the number of tokens left after the flag phase, decremented
by one when it equals the number of registered arguments. -/
def compNargs (fs : FlagSet) (leftover : List String) : Int :=
  if (leftover.length : Int) = (fs.arguments.length : Int) then
    (leftover.length : Int) - 1
  else (leftover.length : Int)

/-- Word under completion handed to callbacks (flagset.go:160/206): the last
word of the sequence, or the empty string when the cursor index equals the
word count (nothing typed yet). -/
def compWord (cc : Int) (ws : List String) : String :=
  if cc = (ws.length : Int) then "" else ws.getD (ws.length - 1) ""

/-- Source `Compgen` (flagset.go:140), over the cursor index `cc`
(`COMP_CWORDS`, a Go int) and the raw word list `ws` (`COMP_WORDS`, index 0 the
program name).  Faithful ports of the source's partial operations: indexing an
empty word or calling with `cc < 1` panics; an unregistered flag name before
the cursor dereferences the nil result of `fs.fs.Lookup` (flagset.go:148-149)
and panics — the `!ok → return ""` guard below it is unreachable; a sequence
flag before the cursor hits the type switch's default and raises
`not implemented type`.  The positional branch re-runs the flag phase on the
FlagSet's own persistent state (`fs.fs.Parse(compWords[1:])`, flagset.go:198)
and keeps that state even on parse error. -/
def Compgen (fs : FlagSet) (cc : Int) (ws : List String) (st : St) :
    Except Err (String × St) :=
  if cc = 1 ∧ ws.length = 1 then .ok (printFlags fs, st)
  else if cc ≤ (ws.length : Int) then
    if cc < 1 then .error .panic
    else
      match (ws.getD (cc - 1).toNat "").data with
      | [] => .error .panic
      | pc :: pcs =>
        if pc = '-' then
          match fs.lookup (String.mk pcs) with
          | none => .error .panic
          | some f =>
            match f.kind with
            | .bool =>
              match (ws.getD (ws.length - 1) "").data with
              | [] => .error .panic
              | lc :: _ => if lc = '-' then .ok (printFlags fs, st) else .ok ("", st)
            | .int | .float | .str =>
              .ok (f.compFn (compWord cc ws) (visitTable st) ws, st)
            | _ => .error (.raised "not implemented type")
        else
          match (ws.getD (ws.length - 1) "").data with
          | [] => .error .panic
          | lc :: _ =>
            if lc = '-' then .ok (printFlags fs, st)
            else
              match flagPhaseRun fs st (ws.drop 1) with
              | (.error _, st2) => .ok ("", st2)
              | (.ok leftover, st2) =>
                if compNargs fs leftover ≥ (fs.arguments.length : Int) ∨
                    compNargs fs leftover < 0 then .ok ("", st2)
                else
                  match fs.arguments.get? (compNargs fs leftover).toNat with
                  | some a => .ok (a.compFn (compWord cc ws) (visitTable st2) ws, st2)
                  | none => .error .panic
  else .ok ("", st)

/-- Lua `arg`-style table handed to the Lua-facing `parse`, restricted to
tables whose numeric keys are integers (the only case with a deterministic
`ForEach` order): the optional entry at key 0, the contiguous array entries at
keys 1..n in order, plus string-keyed and non-positive-integer-keyed entries,
which `toStringSlice` drops. -/
structure LuaArgTable where
  zeroKey : Option String
  arr : List String
  strKeys : List (String × String)
  lowKeys : List (Int × String)

/-- Source `toStringSlice` (helpers.go:5): the key-0 entry first when present,
then the entries at positive integer keys in order; every other key is
dropped. -/
def toStringSlice (t : LuaArgTable) : List String :=
  (match t.zeroKey with | some z => [z] | none => []) ++ t.arr

/-- Re-raise of a returned parse error by the Lua-facing wrapper
(`L.RaiseError("%v", err)`). -/
def raiseReturned : Except Err (LuaTable × St) → Except Err (LuaTable × St)
  | .error (.returned m) => .error (.raised m)
  | x => x

/-- Lua-facing `parse` (flagset.go:688): convert the table, slice off the FIRST
element (`a[1:len(a)]` — on an empty table the Go slice expression panics), run
`Parse` on the remainder, and re-raise a returned error as a Lua error
(`L.RaiseError("%v", err)`). -/
def luaParse (fs : FlagSet) (st : St) (t : LuaArgTable) :
    Except Err (LuaTable × St) :=
  match toStringSlice t with
  | [] => .error .panic
  | _ :: rest => raiseReturned (Parse fs st rest)

/-- Effect of one write on the cell with the given key, as a pure value
function (used to reason about `applyOps`). -/
def opCellFun (o : WOp) (key : String) (v : FlagVal) : FlagVal :=
  match o with
  | .setF m w => if key = m then w else v
  | .appF m e => if key = m then pushElt e v else v
  | .markSeen _ => v

/-- Effect of a write list on the cell with the given key. -/
def cellsFun (ops : List WOp) (key : String) (v : FlagVal) : FlagVal :=
  ops.foldl (fun acc o => opCellFun o key acc) v

/-- Effect of a write list on the seen set. -/
def actFun (ops : List WOp) (a : List String) : List String :=
  ops.foldl (fun acc o => match o with | WOp.markSeen n => addSeen n acc | _ => acc) a

/-- Append a list of elements to a sequence accumulator, left to right. -/
def pushList (es : List SeqElt) (v : FlagVal) : FlagVal :=
  es.foldl (fun acc e => pushElt e acc) v

/-- Empty accumulator of a sequence kind (dead default on scalar kinds). -/
def seqEmpty : FlagKind → FlagVal
  | .ints => .vis []
  | .floats => .vfs []
  | .strs => .vss []
  | _ => .vs ""

/-- Coercion of one raw occurrence value for a sequence kind (dead `none` on
scalar kinds). -/
def coerceElt (k : FlagKind) (s : String) : Option SeqElt :=
  match k with
  | .ints => (parseIntGo s).map SeqElt.ei
  | .floats => (parseFloatGo s).map SeqElt.ef
  | .strs => some (SeqElt.es s)
  | _ => none

/-- Command line in which the flag `times` occurs once per token of `toks`:
`-times t1 -times t2 ...`. -/
def seqArgs (toks : List String) : List String :=
  (toks.map (fun t => ["-times", t])).flatten

/-- Writes performed by scanning `seqArgs` for a sequence flag `times`. -/
def eltOps (es : List SeqElt) : List WOp :=
  (es.map (fun e => [WOp.appF "times" e, WOp.markSeen "times"])).flatten

/-- Default completion callback of the source's registration functions: return
the empty string. -/
def cbEmpty : String → List (String × String) → List String → String :=
  fun _ _ _ => ""

/-- FlagSet with a single sequence flag `times` of the given kind. -/
def seqFlagSet (k : FlagKind) : FlagSet :=
  ⟨"fs", [⟨"times", k, seqEmpty k, "u", cbEmpty⟩], []⟩

/-- Space-joined flag-name list, following the spec's words ("return the
space-joined list of all registered flag names, each prefixed with the flag
marker") — for comparison against the source's `printFlags`. -/
def specFlagList (fs : FlagSet) : String :=
  String.intercalate " " ((sortNames (fs.flags.map Flg.name)).map (fun n => "-" ++ n))

/-- Fixture: one int flag `times` with default 1, no positional arguments. -/
def fsTimes : FlagSet :=
  ⟨"fs", [⟨"times", .int, .vi 1, "u", cbEmpty⟩], []⟩

/-- Fixture: int flag `times` plus one Exact(1) string argument `mr`. -/
def fsTimesArg : FlagSet :=
  ⟨"fs", [⟨"times", .int, .vi 1, "u", cbEmpty⟩], [⟨"mr", .str, .exact 1, "u", cbEmpty⟩]⟩

/-- Fixture: a bool flag `q` and an int flag `a`, no positional arguments. -/
def fsBoolInt : FlagSet :=
  ⟨"fs", [⟨"q", .bool, .vb false, "u", cbEmpty⟩, ⟨"a", .int, .vi 0, "u", cbEmpty⟩], []⟩

/-! Lemmas about the write-op algebra of the flag phase. -/

theorem St_ext {x y : St} (h1 : x.cells = y.cells) (h2 : x.actual = y.actual) :
    x = y := by
  cases x; cases y; simp_all

theorem applyOps_nil (st : St) : applyOps [] st = st := rfl

theorem applyOps_cons (o : WOp) (ops : List WOp) (st : St) :
    applyOps (o :: ops) st = applyOps ops (applyOp st o) := rfl

theorem applyOp_cells (st : St) (o : WOp) :
    (applyOp st o).cells = st.cells.map (fun p => (p.1, opCellFun o p.1 p.2)) := by
  cases o with
  | setF n v =>
    show setCells n v st.cells = _
    unfold setCells
    apply List.map_congr_left
    intro p _
    by_cases h : p.1 = n <;> simp [opCellFun, h]
  | appF n e =>
    show appCells n e st.cells = _
    unfold appCells
    apply List.map_congr_left
    intro p _
    by_cases h : p.1 = n <;> simp [opCellFun, h]
  | markSeen n =>
    show st.cells = _
    simp [opCellFun]

theorem applyOp_actual (st : St) (o : WOp) :
    (applyOp st o).actual =
      (match o with | WOp.markSeen n => addSeen n st.actual | _ => st.actual) := by
  cases o <;> rfl

theorem cellsFun_cons (o : WOp) (ops : List WOp) (key : String) (v : FlagVal) :
    cellsFun (o :: ops) key v = cellsFun ops key (opCellFun o key v) := rfl

theorem applyOps_cells (ops : List WOp) (st : St) :
    (applyOps ops st).cells = st.cells.map (fun p => (p.1, cellsFun ops p.1 p.2)) := by
  induction ops generalizing st with
  | nil => simp [applyOps_nil, cellsFun]
  | cons o ops ih =>
    rw [applyOps_cons, ih, applyOp_cells, List.map_map]
    apply List.map_congr_left
    intro p _
    rfl

theorem applyOps_actual (ops : List WOp) (st : St) :
    (applyOps ops st).actual = actFun ops st.actual := by
  induction ops generalizing st with
  | nil => rfl
  | cons o ops ih =>
    rw [applyOps_cons, ih, applyOp_actual]
    cases o <;> rfl

theorem resetSeqSt_cells (st : St) :
    (resetSeqSt st).cells = st.cells.map (fun p => (p.1, resetVal p.2)) := rfl

theorem resetSeqSt_actual (st : St) : (resetSeqSt st).actual = st.actual := rfl

theorem resetVal_resetVal (v : FlagVal) : resetVal (resetVal v) = resetVal v := by
  cases v <;> rfl

theorem resetVal_pushElt (e : SeqElt) (v : FlagVal) :
    resetVal (pushElt e v) = resetVal v := by
  cases e <;> cases v <;> rfl

theorem pushList_cons (e : SeqElt) (es : List SeqElt) (v : FlagVal) :
    pushList (e :: es) v = pushList es (pushElt e v) := rfl

theorem resetVal_pushList (es : List SeqElt) (v : FlagVal) :
    resetVal (pushList es v) = resetVal v := by
  induction es generalizing v with
  | nil => rfl
  | cons e es ih => rw [pushList_cons, ih, resetVal_pushElt]

theorem cellsFun_nf (ops : List WOp) (key : String) :
    (∃ g, ∀ v, cellsFun ops key v = g) ∨
      (∃ es, ∀ v, cellsFun ops key v = pushList es v) := by
  induction ops with
  | nil => exact Or.inr ⟨[], fun v => rfl⟩
  | cons o ops ih =>
    rcases ih with ⟨g, hg⟩ | ⟨es, hes⟩
    · exact Or.inl ⟨g, fun v => (cellsFun_cons o ops key v).trans (hg _)⟩
    · cases o with
      | setF m w =>
        by_cases hk : key = m
        · refine Or.inl ⟨pushList es w, fun v => ?_⟩
          rw [cellsFun_cons]
          simp only [opCellFun, if_pos hk]
          exact hes w
        · refine Or.inr ⟨es, fun v => ?_⟩
          rw [cellsFun_cons]
          simp only [opCellFun, if_neg hk]
          exact hes v
      | appF m e =>
        by_cases hk : key = m
        · refine Or.inr ⟨e :: es, fun v => ?_⟩
          rw [cellsFun_cons]
          simp only [opCellFun, if_pos hk]
          rw [hes (pushElt e v), pushList_cons]
        · refine Or.inr ⟨es, fun v => ?_⟩
          rw [cellsFun_cons]
          simp only [opCellFun, if_neg hk]
          exact hes v
      | markSeen n =>
        refine Or.inr ⟨es, fun v => ?_⟩
        rw [cellsFun_cons]
        simp only [opCellFun]
        exact hes v

theorem cellsFun_reset_idem (ops : List WOp) (key : String) (v : FlagVal) :
    cellsFun ops key (resetVal (cellsFun ops key (resetVal v))) =
      cellsFun ops key (resetVal v) := by
  rcases cellsFun_nf ops key with ⟨g, hg⟩ | ⟨es, hes⟩
  · rw [hg, hg]
  · rw [hes, hes, resetVal_pushList, resetVal_resetVal]

theorem mem_addSeen {m n : String} {a : List String} :
    m ∈ addSeen n a ↔ m = n ∨ m ∈ a := by
  by_cases h : n ∈ a
  · simp only [addSeen, if_pos h]
    exact ⟨Or.inr, fun x => x.elim (fun e => e ▸ h) id⟩
  · simp only [addSeen, if_neg h, List.mem_append, List.mem_singleton]
    exact or_comm

theorem addSeen_of_mem {n : String} {a : List String} (h : n ∈ a) :
    addSeen n a = a := by
  simp [addSeen, h]

theorem actFun_cons (o : WOp) (ops : List WOp) (a : List String) :
    actFun (o :: ops) a =
      actFun ops (match o with | WOp.markSeen n => addSeen n a | _ => a) := by
  cases o <;> rfl

theorem mem_actFun_of_mem (ops : List WOp) {m : String} {a : List String}
    (h : m ∈ a) : m ∈ actFun ops a := by
  induction ops generalizing a with
  | nil => exact h
  | cons o ops ih =>
    rw [actFun_cons]
    cases o with
    | markSeen n => exact ih (mem_addSeen.mpr (Or.inr h))
    | setF n v => exact ih h
    | appF n e => exact ih h

theorem mem_actFun_of_seen {ops : List WOp} {n : String}
    (h : WOp.markSeen n ∈ ops) (a : List String) : n ∈ actFun ops a := by
  induction ops generalizing a with
  | nil => cases h
  | cons o ops ih =>
    rw [actFun_cons]
    rcases List.mem_cons.mp h with he | ht
    · cases he.symm
      exact mem_actFun_of_mem ops (mem_addSeen.mpr (Or.inl rfl))
    · cases o with
      | markSeen m => exact ih ht _
      | setF m v => exact ih ht _
      | appF m e => exact ih ht _

theorem actFun_of_contains {ops : List WOp} {b : List String}
    (h : ∀ n, WOp.markSeen n ∈ ops → n ∈ b) : actFun ops b = b := by
  induction ops with
  | nil => rfl
  | cons o ops ih =>
    rw [actFun_cons]
    cases o with
    | markSeen n =>
      show actFun ops (addSeen n b) = b
      rw [addSeen_of_mem (h n (List.mem_cons_self _ _))]
      exact ih (fun m hm => h m (List.mem_cons_of_mem _ hm))
    | setF _ v => exact ih (fun m hm => h m (List.mem_cons_of_mem _ hm))
    | appF _ e => exact ih (fun m hm => h m (List.mem_cons_of_mem _ hm))

theorem actFun_idem (ops : List WOp) (a : List String) :
    actFun ops (actFun ops a) = actFun ops a :=
  actFun_of_contains (fun _ hn => mem_actFun_of_seen hn a)

theorem applyOps_reset_idem (ops : List WOp) (st : St) :
    applyOps ops (resetSeqSt (applyOps ops (resetSeqSt st))) =
      applyOps ops (resetSeqSt st) := by
  apply St_ext
  · simp only [applyOps_cells, resetSeqSt_cells, List.map_map]
    apply List.map_congr_left
    intro p _
    simp only [Function.comp_apply]
    rw [cellsFun_reset_idem]
  · simp only [applyOps_actual, resetSeqSt_actual]
    exact actFun_idem ops st.actual

theorem flagPhaseRun_idem {fs : FlagSet} {st : St} {args : List String}
    {r : Except String (List String)} {st' : St}
    (h : flagPhaseRun fs st args = (r, st')) :
    flagPhaseRun fs st' args = (r, st') := by
  unfold flagPhaseRun at h ⊢
  have h1 : (parseLoop fs args).1 = r := congrArg Prod.fst h
  have h2 : applyOps (parseLoop fs args).2 (resetSeqSt st) = st' := congrArg Prod.snd h
  show ((parseLoop fs args).1, applyOps (parseLoop fs args).2 (resetSeqSt st')) = (r, st')
  rw [h1, ← h2, applyOps_reset_idem]

/-- Claim C9: when one FlagSet is reused for multiple Parse calls, each Parse
overwrites the flag value cells and every sequence-kind accumulator is reset at
the start of each Parse, so parsing the same vector twice in a row yields the
same result table — the same sequence values in particular — and the same
state as parsing it once; occurrences are not appended across calls. -/
theorem Parse_overwrite_idem {fs : FlagSet} {st : St} {args : List String}
    {t : LuaTable} {st' : St} (h : Parse fs st args = .ok (t, st')) :
    Parse fs st' args = .ok (t, st') := by
  unfold Parse at h ⊢
  cases hr : flagPhaseRun fs st args with
  | mk r1 r2 =>
  rw [hr] at h
  cases r1 with
  | error m => simp at h
  | ok leftover =>
    by_cases ha : fs.arguments.isEmpty
    · simp only [ha, if_true] at h
      have ht : (⟨buildFlagTable fs r2, leftover.map LuaVal.str⟩ : LuaTable) = t :=
        (Prod.mk.injEq _ _ _ _).mp (Except.ok.inj h) |>.1
      have hst : r2 = st' := (Prod.mk.injEq _ _ _ _).mp (Except.ok.inj h) |>.2
      subst hst
      rw [flagPhaseRun_idem hr]
      simp only [ha, if_true, ht]
    · simp only [ha, if_false] at h
      cases hap : argsPhase fs.arguments leftover with
      | error m => rw [hap] at h; simp at h
      | ok pr =>
        cases pr with
        | mk ps rest =>
        rw [hap] at h
        by_cases hrest : rest.isEmpty
        · simp only [hrest, if_true] at h
          have ht : (⟨buildFlagTable fs r2 ++ ps, []⟩ : LuaTable) = t :=
            (Prod.mk.injEq _ _ _ _).mp (Except.ok.inj h) |>.1
          have hst : r2 = st' := (Prod.mk.injEq _ _ _ _).mp (Except.ok.inj h) |>.2
          subst hst
          rw [flagPhaseRun_idem hr]
          simp only [ha, if_false, hap, hrest, if_true, ht]
          simp
        · simp only [hrest, if_false] at h
          simp at h

/-- Claim C8 (amended): for a fixed FlagSet and a fixed raw word sequence,
repeated Compgen calls at the same cursor index return identical output — a
successful call leaves the state a fixed point, so a second identical call
returns the same output and the same state.  The claim's other conjunct is
false: Compgen's positional branch DOES write the FlagSet's persistent flag
value cells by re-running the flag phase on them (see the counterexample);
idempotence survives because no branch condition reads the cells and the flag
phase is idempotent on the state. -/
theorem Compgen_idem {fs : FlagSet} {cc : Int} {ws : List String} {st : St}
    {o : String} {st' : St} (h : Compgen fs cc ws st = .ok (o, st')) :
    Compgen fs cc ws st' = .ok (o, st') := by
  unfold Compgen at h ⊢
  by_cases h1 : cc = 1 ∧ ws.length = 1
  · rw [if_pos h1] at h ⊢
    obtain ⟨ho, hst⟩ := (Prod.mk.injEq _ _ _ _).mp (Except.ok.inj h)
    subst hst
    rw [ho]
  · rw [if_neg h1] at h ⊢
    by_cases h2 : cc ≤ (ws.length : Int)
    · rw [if_pos h2] at h ⊢
      by_cases h3 : cc < 1
      · rw [if_pos h3] at h
        simp at h
      · rw [if_neg h3] at h ⊢
        cases hp : (ws.getD (cc - 1).toNat "").data with
        | nil =>
          rw [hp] at h
          simp at h
        | cons pc pcs =>
          rw [hp] at h
          dsimp only [] at h ⊢
          by_cases h4 : pc = '-'
          · rw [if_pos h4] at h ⊢
            cases hlk : fs.lookup (String.mk pcs) with
            | none =>
              rw [hlk] at h
              simp at h
            | some f =>
              rw [hlk] at h
              dsimp only [] at h ⊢
              cases hfk : f.kind with
              | bool =>
                rw [hfk] at h
                dsimp only [] at h ⊢
                cases hl : (ws.getD (ws.length - 1) "").data with
                | nil =>
                  rw [hl] at h
                  simp at h
                | cons lc lcs =>
                  rw [hl] at h
                  dsimp only [] at h ⊢
                  by_cases h5 : lc = '-'
                  · rw [if_pos h5] at h ⊢
                    obtain ⟨ho, hst⟩ := (Prod.mk.injEq _ _ _ _).mp (Except.ok.inj h)
                    subst hst
                    rw [ho]
                  · rw [if_neg h5] at h ⊢
                    obtain ⟨ho, hst⟩ := (Prod.mk.injEq _ _ _ _).mp (Except.ok.inj h)
                    subst hst
                    rw [ho]
              | int =>
                rw [hfk] at h
                dsimp only [] at h ⊢
                obtain ⟨ho, hst⟩ := (Prod.mk.injEq _ _ _ _).mp (Except.ok.inj h)
                subst hst
                rw [ho]
              | float =>
                rw [hfk] at h
                dsimp only [] at h ⊢
                obtain ⟨ho, hst⟩ := (Prod.mk.injEq _ _ _ _).mp (Except.ok.inj h)
                subst hst
                rw [ho]
              | str =>
                rw [hfk] at h
                dsimp only [] at h ⊢
                obtain ⟨ho, hst⟩ := (Prod.mk.injEq _ _ _ _).mp (Except.ok.inj h)
                subst hst
                rw [ho]
              | ints =>
                rw [hfk] at h
                simp at h
              | floats =>
                rw [hfk] at h
                simp at h
              | strs =>
                rw [hfk] at h
                simp at h
          · rw [if_neg h4] at h ⊢
            cases hl : (ws.getD (ws.length - 1) "").data with
            | nil =>
              rw [hl] at h
              simp at h
            | cons lc lcs =>
              rw [hl] at h
              dsimp only [] at h ⊢
              by_cases h5 : lc = '-'
              · rw [if_pos h5] at h ⊢
                obtain ⟨ho, hst⟩ := (Prod.mk.injEq _ _ _ _).mp (Except.ok.inj h)
                subst hst
                rw [ho]
              · rw [if_neg h5] at h ⊢
                cases hfr : flagPhaseRun fs st (ws.drop 1) with
                | mk fr1 fr2 =>
                rw [hfr] at h
                cases fr1 with
                | error m =>
                  dsimp only [] at h
                  obtain ⟨ho, hst⟩ := (Prod.mk.injEq _ _ _ _).mp (Except.ok.inj h)
                  subst hst
                  rw [flagPhaseRun_idem hfr]
                  dsimp only []
                  rw [ho]
                | ok leftover =>
                  dsimp only [] at h
                  by_cases h6 : compNargs fs leftover ≥ (fs.arguments.length : Int) ∨
                      compNargs fs leftover < 0
                  · rw [if_pos h6] at h
                    obtain ⟨ho, hst⟩ := (Prod.mk.injEq _ _ _ _).mp (Except.ok.inj h)
                    subst hst
                    rw [flagPhaseRun_idem hfr]
                    dsimp only []
                    rw [if_pos h6, ho]
                  · rw [if_neg h6] at h
                    cases hga : fs.arguments.get? (compNargs fs leftover).toNat with
                    | none =>
                      rw [hga] at h
                      simp at h
                    | some a =>
                      rw [hga] at h
                      dsimp only [] at h
                      obtain ⟨ho, hst⟩ := (Prod.mk.injEq _ _ _ _).mp (Except.ok.inj h)
                      subst hst
                      rw [flagPhaseRun_idem hfr]
                      dsimp only []
                      rw [if_neg h6, hga]
                      dsimp only []
                      rw [ho]
    · rw [if_neg h2] at h ⊢
      obtain ⟨ho, hst⟩ := (Prod.mk.injEq _ _ _ _).mp (Except.ok.inj h)
      subst hst
      rw [ho]

/-! Scanner evaluation lemmas. -/

theorem splitAtEq_of_not_mem {cs : List Char} (h : '=' ∉ cs) :
    splitAtEq cs = (cs, none) := by
  induction cs with
  | nil => rfl
  | cons c rest ih =>
    have hc : c ≠ '=' := fun hc => h (hc ▸ List.mem_cons_self _ _)
    have hr : '=' ∉ rest := fun hr => h (List.mem_cons_of_mem _ hr)
    unfold splitAtEq
    rw [if_neg hc, ih hr]

theorem addSeen_idem (n : String) (a : List String) :
    addSeen n (addSeen n a) = addSeen n a := by
  by_cases h : n ∈ a
  · rw [addSeen_of_mem h, addSeen_of_mem h]
  · exact addSeen_of_mem (mem_addSeen.mpr (Or.inl rfl))

theorem scanTok_unknown {fs : FlagSet} {name : String} {c0 : Char}
    {cs0 : List Char} (next : Option String)
    (hn : name.data = c0 :: cs0) (h1 : c0 ≠ '-') (h2 : c0 ≠ '=')
    (h3 : '=' ∉ name.data) (h4 : name ≠ "help") (h5 : name ≠ "h")
    (hlk : fs.lookup name = none) :
    scanTok fs ("-" ++ name) next =
      .failTok ("flag provided but not defined: -" ++ name) := by
  have hd : ("-" ++ name).data = '-' :: c0 :: cs0 := by
    rw [show ("-" ++ name).data = '-' :: name.data from rfl, hn]
  have hmk : String.mk (c0 :: cs0) = name := by rw [← hn]
  unfold scanTok
  rw [hd]
  dsimp only
  rw [if_neg (by simp)]
  rw [if_neg (fun hc => h1 hc.1)]
  rw [if_neg h1]
  dsimp only
  rw [if_neg (by rintro (hc | hc); exacts [h1 hc, h2 hc])]
  rw [splitAtEq_of_not_mem (hn ▸ h3)]
  dsimp only
  rw [hmk, hlk]
  dsimp only
  rw [if_neg (by rintro (hc | hc); exacts [h4 hc, h5 hc])]

/-! Claim theorems and their witnesses. -/

/-- Claim C1: for every FlagSet with zero registered positional arguments, a
successful Parse returns the flag-name-to-value mapping plus all tokens left
over after the flag phase, appended verbatim, in order, as the ordered array
part of the result table; no error is raised for leftover tokens. -/
theorem parse_no_arguments_keeps_leftover (fs : FlagSet) (st : St)
    (args leftover : List String) (st' : St)
    (hargs : fs.arguments = [])
    (hrun : flagPhaseRun fs st args = (.ok leftover, st')) :
    Parse fs st args =
      .ok (⟨buildFlagTable fs st', leftover.map LuaVal.str⟩, st') := by
  unfold Parse
  rw [hrun]
  dsimp only
  rw [if_pos (by simp [hargs])]

/-- Witness for C1 at the spec's example: `["-times","2","foo"]` against an int
flag `times` yields `{times ↦ 2}` plus the leftover sequence `["foo"]`. -/
theorem parse_no_arguments_keeps_leftover_witness :
    fsTimes.arguments = [] ∧
    flagPhaseRun fsTimes (initSt fsTimes) ["-times", "2", "foo"] =
      (.ok ["foo"], ⟨[("times", FlagVal.vi 2)], ["times"]⟩) ∧
    Parse fsTimes (initSt fsTimes) ["-times", "2", "foo"] =
      .ok (⟨buildFlagTable fsTimes ⟨[("times", FlagVal.vi 2)], ["times"]⟩,
        [LuaVal.str "foo"]⟩, ⟨[("times", FlagVal.vi 2)], ["times"]⟩) :=
  ⟨rfl, rfl,
    parse_no_arguments_keeps_leftover fsTimes (initSt fsTimes)
      ["-times", "2", "foo"] ["foo"] ⟨[("times", FlagVal.vi 2)], ["times"]⟩
      rfl rfl⟩

/-- Claim C3: parsing a vector whose head is a flag-marker token with an
unregistered name fails with the exact message
`flag provided but not defined: -<name>`, returned as an error value with no
partial result, whatever tokens follow. -/
theorem parse_unknown_flag (fs : FlagSet) (st : St) (name : String)
    (rest : List String) (c0 : Char) (cs0 : List Char)
    (hn : name.data = c0 :: cs0) (h1 : c0 ≠ '-') (h2 : c0 ≠ '=')
    (h3 : '=' ∉ name.data) (h4 : name ≠ "help") (h5 : name ≠ "h")
    (hlk : fs.lookup name = none) :
    Parse fs st (("-" ++ name) :: rest) =
      .error (.returned ("flag provided but not defined: -" ++ name)) := by
  unfold Parse flagPhaseRun parseLoop
  rw [scanTok_unknown rest.head? hn h1 h2 h3 h4 h5 hlk]

/-- Witness for C3 at the spec's example: `["-foo"]` against a FlagSet with no
flag named `foo`. -/
theorem parse_unknown_flag_witness :
    fsTimes.lookup "foo" = none ∧
    Parse fsTimes (initSt fsTimes) ["-foo"] =
      .error (.returned "flag provided but not defined: -foo") := by
  refine ⟨rfl, ?_⟩
  have h := parse_unknown_flag fsTimes (initSt fsTimes) "foo" [] 'f' ['o', 'o']
    rfl (by decide) (by decide) (by decide) (by decide) (by decide) rfl
  simpa using h

/-- Claim C4 (amended): with at least one registered positional argument, if
tokens remain unconsumed after every registered argument has been satisfied by
the cardinality consumption algorithm, Parse fails reporting the leftover
tokens — but the error is RAISED as a Lua error through
`L.RaiseError("unknown argument: %v", args)` (flagset.go:682), not returned as
a value-or-error result like the other parse errors. -/
theorem parse_leftover_arguments_raises (fs : FlagSet) (st : St)
    (args leftover : List String) (st' : St) (ps : List (String × LuaVal))
    (rest : List String)
    (hargs : fs.arguments ≠ [])
    (hrun : flagPhaseRun fs st args = (.ok leftover, st'))
    (hap : argsPhase fs.arguments leftover = .ok (ps, rest))
    (hrest : rest ≠ []) :
    Parse fs st args =
      .error (.raised ("unknown argument: " ++ goFmtSlice rest)) := by
  unfold Parse
  rw [hrun]
  dsimp only
  rw [if_neg (by simpa using hargs), hap]
  dsimp only
  rw [if_neg (by simpa using hrest)]

/-- Counterexample for C4 as stated: with one Exact(1) string argument and
input `["a","b"]`, Parse does fail reporting the leftover `[b]`, but the error
is a raised Lua error, not an error returned as a value. -/
theorem parse_leftover_arguments_raises_cex :
    Parse fsTimesArg (initSt fsTimesArg) ["a", "b"] =
      .error (.raised "unknown argument: [b]") ∧
    isReturnedErr (Parse fsTimesArg (initSt fsTimesArg) ["a", "b"]) = false :=
  ⟨rfl, rfl⟩

/-- Witness for C4's amended theorem at the same concrete input. -/
theorem parse_leftover_arguments_raises_witness :
    flagPhaseRun fsTimesArg (initSt fsTimesArg) ["a", "b"] =
      (.ok ["a", "b"], initSt fsTimesArg) ∧
    argsPhase fsTimesArg.arguments ["a", "b"] =
      .ok ([("mr", LuaVal.str "a")], ["b"]) ∧
    Parse fsTimesArg (initSt fsTimesArg) ["a", "b"] =
      .error (.raised ("unknown argument: " ++ goFmtSlice ["b"])) :=
  ⟨rfl, rfl,
    parse_leftover_arguments_raises fsTimesArg (initSt fsTimesArg)
      ["a", "b"] ["a", "b"] (initSt fsTimesArg) [("mr", LuaVal.str "a")] ["b"]
      (List.cons_ne_nil _ _) rfl rfl (List.cons_ne_nil _ _)⟩

/-- Claim C5 (amended): Compgen with cursor index 1 and exactly one word
returns the NEWLINE-joined list of all registered flag names, each prefixed
with `-` (the source's `printFlags` joins with `"\n"`, not with a space), in
VisitAll's sorted name order, leaving the state untouched. -/
theorem compgen_first_word_flag_list (fs : FlagSet) (w : String) (st : St) :
    Compgen fs 1 [w] st =
      .ok (String.intercalate "\n"
        ((sortNames (fs.flags.map Flg.name)).map (fun n => "-" ++ n)), st) := by
  unfold Compgen
  rw [if_pos ⟨rfl, rfl⟩]
  rfl

/-- Counterexample for C5 as stated: with flags `q` and `a` registered, the
output is `"-a\n-q"`, not the space-joined list `"-a -q"` that the claim
promises. -/
theorem compgen_first_word_flag_list_cex :
    Compgen fsBoolInt 1 ["prog"] (initSt fsBoolInt) =
      .ok ("-a\n-q", initSt fsBoolInt) ∧
    specFlagList fsBoolInt = "-a -q" ∧
    ("-a\n-q" : String) ≠ "-a -q" :=
  ⟨rfl, rfl, by decide⟩

/-- Claim C6 (code bug): during Compgen, a flag-marker word before the cursor
whose stripped name is not registered makes `fs.fs.Lookup` return nil, and the
immediately following `fl.Name` field access (flagset.go:148-149) dereferences
the nil pointer — a runtime panic — before the `!ok → return ""` guard can
run.  The empty string the spec (and the dead guard) promise is never
returned. -/
theorem compgen_unknown_flag_panics :
    Compgen fsTimes 2 ["prog", "-foo"] (initSt fsTimes) = .error .panic := rfl

/-- Claim C7: when the word immediately before the cursor names a registered
boolean flag, Compgen returns the flag-name list if the word under the cursor
starts with the flag marker and the empty string otherwise.  "Word under the
cursor" is the spec's §4.5 notion, i.e. the LAST word of the sequence (the
source checks `compWords[len(compWords)-1]`). -/
theorem compgen_bool_flag_branch (fs : FlagSet) (cc : Int) (ws : List String)
    (st : St) (name : String) (f : Flg) (lc : Char) (lcs : List Char)
    (h1 : ¬(cc = 1 ∧ ws.length = 1))
    (h2 : cc ≤ (ws.length : Int)) (h3 : ¬cc < 1)
    (hprev : ws.getD (cc - 1).toNat "" = "-" ++ name)
    (hlk : fs.lookup name = some f) (hfk : f.kind = .bool)
    (hlast : (ws.getD (ws.length - 1) "").data = lc :: lcs) :
    Compgen fs cc ws st =
      .ok (if lc = '-' then printFlags fs else "", st) := by
  unfold Compgen
  rw [if_neg h1, if_pos h2, if_neg h3]
  have hd : (ws.getD (cc - 1).toNat "").data = '-' :: name.data := by
    rw [hprev]; rfl
  rw [hd]
  dsimp only
  rw [if_pos rfl, show String.mk name.data = name from rfl, hlk]
  dsimp only
  rw [hfk]
  dsimp only
  rw [hlast]
  dsimp only
  by_cases h5 : lc = '-'
  · rw [if_pos h5, if_pos h5]
  · rw [if_neg h5, if_neg h5]

/-- Witness for C7: a boolean flag `q` followed by the flag-marker word `-q`
under the cursor returns the flag-name list. -/
theorem compgen_bool_flag_branch_witness :
    Compgen fsBoolInt 2 ["prog", "-q"] (initSt fsBoolInt) =
      .ok (printFlags fsBoolInt, initSt fsBoolInt) := by
  have h := compgen_bool_flag_branch fsBoolInt 2 ["prog", "-q"]
    (initSt fsBoolInt) "q" ⟨"q", .bool, .vb false, "u", cbEmpty⟩ '-' ['q']
    (by decide) (by decide) (by decide) rfl rfl rfl rfl
  simpa using h

theorem seqArgs_cons (s : String) (ss : List String) :
    seqArgs (s :: ss) = "-times" :: s :: seqArgs ss := rfl

theorem eltOps_cons (e : SeqElt) (es : List SeqElt) :
    eltOps (e :: es) =
      WOp.appF "times" e :: WOp.markSeen "times" :: eltOps es := rfl

theorem scanTok_seqFlag_core (k : FlagKind) (t : String) (ops : List WOp)
    (hkb : k ≠ .bool) (hset : setOps k "times" t = some ops) :
    scanTok (seqFlagSet k) "-times" (some t) = .take2 ops := by
  unfold scanTok
  rw [show ("-times" : String).data = '-' :: 't' :: ['i', 'm', 'e', 's'] from rfl]
  dsimp only
  rw [if_neg (by decide), if_neg (by decide), if_neg (by decide)]
  dsimp only
  rw [if_neg (by decide)]
  rw [show splitAtEq ('t' :: ['i', 'm', 'e', 's']) = (['t', 'i', 'm', 'e', 's'], none)
    from rfl]
  dsimp only
  rw [show (seqFlagSet k).lookup (String.mk ['t', 'i', 'm', 'e', 's']) =
    some (Flg.mk "times" k (seqEmpty k) "u" cbEmpty) from rfl]
  dsimp only
  rw [if_neg hkb]
  rw [hset]

theorem scanTok_seqFlag (k : FlagKind)
    (hk : k = .ints ∨ k = .floats ∨ k = .strs) (t : String) (e : SeqElt)
    (hce : coerceElt k t = some e) :
    scanTok (seqFlagSet k) "-times" (some t) =
      .take2 [WOp.appF "times" e, WOp.markSeen "times"] := by
  rcases hk with rfl | rfl | rfl
  · simp only [coerceElt] at hce
    obtain ⟨i, hi, he⟩ := Option.map_eq_some'.mp hce
    subst he
    exact scanTok_seqFlag_core _ _ _ (by decide) (by simp [setOps, hi])
  · simp only [coerceElt] at hce
    obtain ⟨q, hq, he⟩ := Option.map_eq_some'.mp hce
    subst he
    exact scanTok_seqFlag_core _ _ _ (by decide) (by simp [setOps, hq])
  · simp only [coerceElt, Option.some.injEq] at hce
    subst hce
    exact scanTok_seqFlag_core _ _ _ (by decide) rfl

theorem parseLoop_seqArgs (k : FlagKind)
    (hk : k = .ints ∨ k = .floats ∨ k = .strs) :
    ∀ (ss : List String) (es : List SeqElt),
      List.Forall₂ (fun s e => coerceElt k s = some e) ss es →
      parseLoop (seqFlagSet k) (seqArgs ss) = (.ok [], eltOps es) := by
  intro ss
  induction ss with
  | nil =>
    intro es h
    cases h
    rfl
  | cons s ss ih =>
    intro es h
    cases h with
    | cons hse hrest =>
      rw [seqArgs_cons]
      unfold parseLoop
      dsimp only [List.head?]
      rw [scanTok_seqFlag k hk s _ hse]
      dsimp only
      rw [ih _ hrest]
      rfl

theorem applyOps_eltOps (es : List SeqElt) (w : FlagVal) (act : List String) :
    applyOps (eltOps es) ⟨[("times", w)], act⟩ =
      ⟨[("times", pushList es w)],
        if es.isEmpty then act else addSeen "times" act⟩ := by
  induction es generalizing w act with
  | nil => rfl
  | cons e es ih =>
    rw [eltOps_cons, applyOps_cons, applyOps_cons]
    have h1 : applyOp (⟨[("times", w)], act⟩ : St) (WOp.appF "times" e) =
        ⟨[("times", pushElt e w)], act⟩ := by
      simp [applyOp, appCells]
    have h2 : applyOp (⟨[("times", pushElt e w)], act⟩ : St) (WOp.markSeen "times") =
        ⟨[("times", pushElt e w)], addSeen "times" act⟩ := rfl
    rw [h1, h2, ih]
    apply St_ext
    · rw [pushList_cons]
    · cases es with
      | nil => rfl
      | cons e2 es2 =>
        show addSeen "times" (addSeen "times" act) = addSeen "times" act
        exact addSeen_idem _ _

/-- Claim C2: for a sequence-kind flag (int-, float- or string-sequence),
parsing a vector in which `times` occurs once per element of `ss` appends
exactly one coerced element per occurrence, in occurrence order, with no
deduplication — whatever the accumulator held before (it is reset at the start
of the Parse). -/
theorem parse_seq_flag_accumulates (k : FlagKind)
    (hk : k = .ints ∨ k = .floats ∨ k = .strs)
    (ss : List String) (es : List SeqElt)
    (hco : List.Forall₂ (fun s e => coerceElt k s = some e) ss es)
    (w0 : FlagVal) (hw0 : resetVal w0 = seqEmpty k) (act : List String) :
    Parse (seqFlagSet k) ⟨[("times", w0)], act⟩ (seqArgs ss) =
      .ok (⟨[("times", luaOfFlagVal (pushList es (seqEmpty k)))], []⟩,
        ⟨[("times", pushList es (seqEmpty k))],
          if es.isEmpty then act else addSeen "times" act⟩) := by
  unfold Parse flagPhaseRun
  rw [parseLoop_seqArgs k hk ss es hco]
  dsimp only
  rw [show resetSeqSt ⟨[("times", w0)], act⟩ = ⟨[("times", seqEmpty k)], act⟩ from by
    simp [resetSeqSt, hw0]]
  rw [applyOps_eltOps]
  rfl

/-- Witness for C2 at the spec's example: `["-times","2","-times","4"]`
against an int-sequence flag yields the ordered sequence `[2, 4]` even though
the accumulator previously held `[9]`. -/
theorem parse_seq_flag_accumulates_witness :
    coerceElt .ints "2" = some (SeqElt.ei 2) ∧
    coerceElt .ints "4" = some (SeqElt.ei 4) ∧
    resetVal (FlagVal.vis [9]) = seqEmpty .ints ∧
    seqArgs ["2", "4"] = ["-times", "2", "-times", "4"] ∧
    pushList [SeqElt.ei 2, SeqElt.ei 4] (seqEmpty .ints) = FlagVal.vis [2, 4] ∧
    Parse (seqFlagSet .ints) ⟨[("times", FlagVal.vis [9])], []⟩
        (seqArgs ["2", "4"]) =
      .ok (⟨[("times",
          luaOfFlagVal (pushList [SeqElt.ei 2, SeqElt.ei 4] (seqEmpty .ints)))], []⟩,
        ⟨[("times", pushList [SeqElt.ei 2, SeqElt.ei 4] (seqEmpty .ints))],
          if ([SeqElt.ei 2, SeqElt.ei 4] : List SeqElt).isEmpty then []
          else addSeen "times" []⟩) :=
  ⟨rfl, rfl, rfl, rfl, rfl,
    parse_seq_flag_accumulates .ints (Or.inl rfl) ["2", "4"]
      [SeqElt.ei 2, SeqElt.ei 4]
      (List.Forall₂.cons rfl (List.Forall₂.cons rfl List.Forall₂.nil))
      (FlagVal.vis [9]) rfl []⟩

/-- Counterexample for C8 as stated: Compgen's positional branch runs the real
flag phase on the FlagSet's persistent cells (`fs.fs.Parse(compWords[1:])`,
flagset.go:198), so completing after `-times 2` writes the parsed value 2 into
the persistent `times` cell and marks it seen — the state is mutated. -/
theorem compgen_mutates_cells_cex :
    Compgen fsTimes 4 ["prog", "-times", "2", "x"] (initSt fsTimes) =
      .ok ("", ⟨[("times", FlagVal.vi 2)], ["times"]⟩) ∧
    (⟨[("times", FlagVal.vi 2)], ["times"]⟩ : St) ≠ initSt fsTimes :=
  ⟨rfl, by decide⟩

/-- Witness for C8's amended theorem (`Compgen_idem`): the second identical
call, run from the mutated state, returns the same output and the same
state. -/
theorem compgen_idem_witness :
    Compgen fsTimes 4 ["prog", "-times", "2", "x"] (initSt fsTimes) =
      .ok ("", ⟨[("times", FlagVal.vi 2)], ["times"]⟩) ∧
    Compgen fsTimes 4 ["prog", "-times", "2", "x"]
        ⟨[("times", FlagVal.vi 2)], ["times"]⟩ =
      .ok ("", ⟨[("times", FlagVal.vi 2)], ["times"]⟩) :=
  ⟨rfl,
    @Compgen_idem fsTimes 4 ["prog", "-times", "2", "x"] (initSt fsTimes) ""
      ⟨[("times", FlagVal.vi 2)], ["times"]⟩ rfl⟩

/-- Witness for C9 (`Parse_overwrite_idem`): parsing
`["-times","2","-times","4"]` twice in a row against an int-sequence flag
yields the same `[2, 4]` sequence and the same state as parsing it once. -/
theorem parse_overwrite_idem_witness :
    Parse (seqFlagSet .ints) (initSt (seqFlagSet .ints))
        ["-times", "2", "-times", "4"] =
      .ok (⟨[("times", LuaVal.numArr [2, 4])], []⟩,
        ⟨[("times", FlagVal.vis [2, 4])], ["times"]⟩) ∧
    Parse (seqFlagSet .ints) ⟨[("times", FlagVal.vis [2, 4])], ["times"]⟩
        ["-times", "2", "-times", "4"] =
      .ok (⟨[("times", LuaVal.numArr [2, 4])], []⟩,
        ⟨[("times", FlagVal.vis [2, 4])], ["times"]⟩) :=
  ⟨rfl,
    @Parse_overwrite_idem (seqFlagSet .ints) (initSt (seqFlagSet .ints))
      ["-times", "2", "-times", "4"] ⟨[("times", LuaVal.numArr [2, 4])], []⟩
      ⟨[("times", FlagVal.vis [2, 4])], ["times"]⟩ rfl⟩

/-- Claim C10: the Lua-facing parse always discards the first element of the
word sequence converted from its table argument before running the flag phase;
the conversion places the key-0 entry (when present) first, followed by the
entries at positive integer keys in order, dropping all other keys — so with
no key-0 entry, the first real argument of the table is silently dropped. -/
theorem luaParse_discards_first (fs : FlagSet) (st : St) (t : LuaArgTable)
    (w : String) (rest : List String)
    (h : t.zeroKey.toList ++ t.arr = w :: rest) :
    toStringSlice t = t.zeroKey.toList ++ t.arr ∧
    luaParse fs st t = raiseReturned (Parse fs st rest) := by
  have hts : toStringSlice t = t.zeroKey.toList ++ t.arr := by
    obtain ⟨z, arr, sk, lk⟩ := t
    cases z <;> rfl
  refine ⟨hts, ?_⟩
  unfold luaParse
  rw [hts, h]

/-- Witness for C10: a table with no key-0 entry, array entries
`["-times","2"]`, plus a string key and a negative key (both dropped).  The
first real argument `-times` is never parsed: `times` keeps its default 1 and
`"2"` ends up as a leftover token. -/
theorem luaParse_discards_first_witness :
    toStringSlice ⟨none, ["-times", "2"], [("k", "v")], [(-1, "z")]⟩ =
      ["-times", "2"] ∧
    luaParse fsTimes (initSt fsTimes)
        ⟨none, ["-times", "2"], [("k", "v")], [(-1, "z")]⟩ =
      raiseReturned (Parse fsTimes (initSt fsTimes) ["2"]) ∧
    luaParse fsTimes (initSt fsTimes)
        ⟨none, ["-times", "2"], [("k", "v")], [(-1, "z")]⟩ =
      .ok (⟨[("times", LuaVal.num 1)], [LuaVal.str "2"]⟩, initSt fsTimes) :=
  ⟨rfl,
    (luaParse_discards_first fsTimes (initSt fsTimes)
      ⟨none, ["-times", "2"], [("k", "v")], [(-1, "z")]⟩ "-times" ["2"] rfl).2,
    rfl⟩

end Gluaflag
